import Mathlib

/-!
Verification of the layered Merkle commitment engine and the example
programs of the icicle repository.

The two Rust sources under `examples/rust` are callers of the icicle
library (`MerkleTree::new/build/get_proof/verify`, `Keccak256`, `Blake2s`);
the library itself is not part of the source tree given here, so the
Merkle engine and the batched hashing capability are modelled from the
specification.  The call structure of `main` and the key-value generator
`create_random_kv_pairs` are embedded directly from
`examples/rust/hash-and-merkle/src/main.rs`.
-/

namespace Icicle

/-- Byte buffers and digests are lists of byte values. -/
abbrev Bytes := List Nat

/-- Modelled from the spec: zero-fill padding policy — a short chunk is
extended with zero bytes up to the declared leaf size
(`PaddingPolicy::ZeroPadding`). -/
def zeroPad (sz : Nat) (b : Bytes) : Bytes :=
  b ++ List.replicate (sz - b.length) 0

/-- Modelled from the spec: `leaf_count = ceil(len(input)/leaf_size)`;
the number of leaf chunks of the builder (missing builder code:
`MerkleTree::build`). -/
def leafCount (sz len : Nat) : Nat :=
  (len + sz - 1) / sz

/-- Modelled from the spec: the `i`-th leaf chunk of the input, padded to
the leaf size with the zero-fill policy. -/
def chunk (sz : Nat) (b : Bytes) (i : Nat) : Bytes :=
  zeroPad sz ((b.drop (i * sz)).take sz)

/-- Modelled from the spec: partition of the input into `leaf_count`
leaf-sized chunks, the final short chunk zero-padded. -/
def chunks (sz : Nat) (b : Bytes) : List Bytes :=
  (List.range (leafCount sz b.length)).map (chunk sz b)

/-- Index of the sibling of node `i` inside one tree level. -/
def sibIdx (i : Nat) : Nat :=
  if i % 2 = 0 then i + 1 else i - 1

/-- Modelled from the spec: one compression step of the builder
(`MerkleTree::build` is not in the source tree).  Digests of a level are
paired left to right and each pair is compressed; the odd-count policy is
fixed to duplicating the lone trailing node, applied identically by
builder, prover and verifier (the spec leaves the choice open but demands
one fixed policy). -/
def compressLevel (c : Bytes → Bytes) : List Bytes → List Bytes
  | [] => []
  | [x] => [c (x ++ x)]
  | x :: y :: rest => c (x ++ y) :: compressLevel c rest

/-- Modelled from the spec: iterated level compression of the builder,
one compressor per internal level, leaves first. -/
def buildLevels : List (Bytes → Bytes) → List Bytes → List Bytes
  | [], level => level
  | c :: cs, level => buildLevels cs (compressLevel c level)

/-- Fuel-driven computation of `ceil(log2 n)`; the fuel `n` itself always
suffices. -/
def treeHeightAux : Nat → Nat → Nat
  | 0, _ => 0
  | fuel + 1, n => if n ≤ 1 then 0 else treeHeightAux fuel ((n + 1) / 2) + 1

/-- Modelled from the spec: the tree height `H = ceil(log2(leaf_count))`
(proved equal to `Nat.clog 2` below). -/
def treeHeight (n : Nat) : Nat :=
  treeHeightAux n n

/-- Modelled from the spec: root digest of the tree built from the input
bytes — leaf digests computed by the level-0 hasher, then compressed
level by level. -/
def buildRoot (h : Bytes → Bytes) (cs : List (Bytes → Bytes)) (sz : Nat) (input : Bytes) :
    Bytes :=
  (buildLevels cs ((chunks sz input).map h)).getD 0 []

/-- Modelled from the spec: a Merkle proof — opened leaf content, its
index, the root it was computed against, the pruning flag and the sibling
path (`MerkleProof` of the icicle library is not in the source tree). -/
structure MerkleProof where
  leaf : Bytes
  leafIdx : Nat
  root : Bytes
  pruned : Bool
  path : List Bytes
deriving DecidableEq

/-- Sibling digest of node `i` in a level; under the duplicate-lone-node
policy a missing sibling is the node itself. -/
def sibVal (level : List Bytes) (i : Nat) : Bytes :=
  if sibIdx i < level.length then level.getD (sibIdx i) [] else level.getD i []

/-- Modelled from the spec: full (non-pruned) sibling path of leaf `i`,
one entry per level from the leaves to the root. -/
def provePath : List (Bytes → Bytes) → List Bytes → Nat → List Bytes
  | [], _, _ => []
  | c :: cs, level, i => sibVal level i :: provePath cs (compressLevel c level) (i / 2)

/-- Modelled from the spec: pruned sibling path — entries the verifier
can recompute (the duplicated lone sibling) are omitted. -/
def provePathPruned : List (Bytes → Bytes) → List Bytes → Nat → List Bytes
  | [], _, _ => []
  | c :: cs, level, i =>
    if sibIdx i < level.length then
      level.getD (sibIdx i) [] :: provePathPruned cs (compressLevel c level) (i / 2)
    else
      provePathPruned cs (compressLevel c level) (i / 2)

/-- Modelled from the spec: proof generation (`MerkleTree::get_proof` is
not in the source tree) — the opened leaf chunk, its index, the tree
root, the pruning flag and the sibling path. -/
def prove (h : Bytes → Bytes) (cs : List (Bytes → Bytes)) (sz : Nat) (input : Bytes)
    (i : Nat) (pruned : Bool) : MerkleProof :=
  { leaf := chunk sz input i
    leafIdx := i
    root := buildRoot h cs sz input
    pruned := pruned
    path :=
      if pruned then provePathPruned cs ((chunks sz input).map h) i
      else provePath cs ((chunks sz input).map h) i }

/-- One verifier step: combine the running digest with a sibling in the
left/right order given by the parity of the index at that level. -/
def combine (c : Bytes → Bytes) (i : Nat) (d s : Bytes) : Bytes :=
  if i % 2 = 0 then c (d ++ s) else c (s ++ d)

/-- Modelled from the spec: verifier recomputation for a full path — one
path entry is consumed per level; a leftover or missing entry is a shape
mismatch (`none`). -/
def verifyChain : List (Bytes → Bytes) → List Bytes → Nat → Bytes → Option Bytes
  | [], [], _, d => some d
  | [], _ :: _, _, _ => none
  | _ :: _, [], _, _ => none
  | c :: cs, s :: path, i, d => verifyChain cs path (i / 2) (combine c i d s)

/-- Modelled from the spec: verifier recomputation for a pruned path —
`n` is the node count of the current level (known to the verifier, which
reconstructs the tree shape from its own configuration); a level whose
sibling was pruned as the duplicated lone node is recomputed as such. -/
def verifyChainPruned :
    List (Bytes → Bytes) → List Bytes → Nat → Nat → Bytes → Option Bytes
  | [], [], _, _, d => some d
  | [], _ :: _, _, _, _ => none
  | c :: cs, path, n, i, d =>
    if sibIdx i < n then
      match path with
      | [] => none
      | s :: rest => verifyChainPruned cs rest ((n + 1) / 2) (i / 2) (combine c i d s)
    else
      verifyChainPruned cs path ((n + 1) / 2) (i / 2) (c (d ++ d))

/-- Modelled from the spec: the error taxonomy of the engine. -/
inductive MerkleError where
  | ConfigError
  | IndexOutOfRange
  | LayerNotRetained
  | SchemaMismatch
deriving DecidableEq

/-- Modelled from the spec: `verify` — hash the opened leaf with the
level-0 hasher, fold the path upward, and compare with the claimed root;
a malformed proof/schedule pair is an explicit `SchemaMismatch` error,
a shape-valid but cryptographically invalid proof is `ok false`. -/
def verify (h : Bytes → Bytes) (cs : List (Bytes → Bytes)) (n : Nat) (p : MerkleProof) :
    Except MerkleError Bool :=
  match (if p.pruned then verifyChainPruned cs p.path n p.leafIdx (h p.leaf)
         else verifyChain cs p.path p.leafIdx (h p.leaf)) with
  | none => .error .SchemaMismatch
  | some d => .ok (decide (d = p.root))

/-- Modelled from the spec: `build` with its configuration checks —
`leaf_size > 0` and `schedule.len() = ceil(log2(leaf_count)) + 1`,
otherwise `ConfigError`.  The schedule's head is the leaf hasher, its
tail the per-level compressors. -/
def buildE (schedule : List (Bytes → Bytes)) (sz : Nat) (input : Bytes) :
    Except MerkleError Bytes :=
  match schedule with
  | [] => .error .ConfigError
  | h :: cs =>
    if sz = 0 then .error .ConfigError
    else if cs.length = treeHeight (leafCount sz input.length) then
      .ok (buildRoot h cs sz input)
    else .error .ConfigError

/-- Modelled from the spec: `get_proof` with its index check — a leaf
index outside `[0, leaf_count)` is an `IndexOutOfRange` error. -/
def proveE (h : Bytes → Bytes) (cs : List (Bytes → Bytes)) (sz : Nat) (input : Bytes)
    (i : Nat) (pruned : Bool) : Except MerkleError MerkleProof :=
  if i < leafCount sz input.length then .ok (prove h cs sz input i pruned)
  else .error .IndexOutOfRange

/-- Modelled from the spec: the abstract hashing capability — an output
size and a digest function over byte buffers (the icicle `Hasher` is not
in the source tree). -/
structure Hasher where
  outputSize : Nat
  run : Bytes → Bytes

/-- Modelled from the spec: the batched form partitions the input into
fixed-size records, one per output slot. -/
def records (sz : Nat) (b : Bytes) : List Bytes :=
  (List.range (b.length / sz)).map (fun j => (b.drop (j * sz)).take sz)

/-- Modelled from the spec: batched hashing — the concatenation of the
digests of the records of the input. -/
def batchHash (h : Hasher) (sz : Nat) (input : Bytes) : Bytes :=
  ((records sz input).map h.run).flatten

/-- The `j`-th output slot of `output_size()` bytes of a batched output
buffer. -/
def outputSlot (h : Hasher) (out : Bytes) (j : Nat) : Bytes :=
  (out.drop (j * h.outputSize)).take h.outputSize

/-! ## Embedding of `examples/rust/hash-and-merkle/src/main.rs` -/

/-- The operations `main` of the hash-and-merkle example can invoke. -/
inductive Call where
  | parseArgs
  | setupDevice
  | keccakExample
  | merkleExample
deriving DecidableEq

/-- The straight-line call sequence of `main` in
`examples/rust/hash-and-merkle/src/main.rs`: argument parsing, device
setup, then `keccak_hash_example()`; the call to the Merkle-tree example
is commented out in the source. -/
def mainCalls : List Call :=
  [Call.parseArgs, Call.setupDevice, Call.keccakExample]

/-- The fixed seed constant of the example source. -/
def SEED : Nat := 123456789

/-- Keys of the generated key-value records, from `PlainKey` of the
example: an account address, or a storage address and slot (addresses and
slots abstracted to single draws). -/
inductive PlainKey where
  | account (addr : Nat)
  | storage (addr : Nat) (slot : Nat)
deriving DecidableEq, BEq

/-- Values of the generated key-value records, from `PlainValue` of the
example: an account balance and nonce, or a storage word. -/
inductive PlainValue where
  | account (balance : Nat) (nonce : Nat)
  | storage (val : Nat)
deriving DecidableEq, BEq

/-- Abstract model of the `rand` crate's `StdRng` (external library):
`init` maps a seed to an initial state and `step` maps a state to one
drawn value and the next state. -/
structure RngSpec where
  init : Nat → Nat
  step : Nat → Nat × Nat

/-- The first loop of `create_random_kv_pairs`: `k` account pairs, keys
drawn from the first generator, balance and nonce from the second;
returns the pairs and both final generator states. -/
def accountLoop (R : RngSpec) : Nat → Nat → Nat → List (PlainKey × PlainValue) × Nat × Nat
  | 0, st1, st2 => ([], st1, st2)
  | k + 1, st1, st2 =>
    let a := R.step st1
    let bal := R.step st2
    let non := R.step bal.2
    let rest := accountLoop R k a.2 non.2
    ((PlainKey.account a.1, PlainValue.account bal.1 non.1) :: rest.1, rest.2)

/-- The second loop of `create_random_kv_pairs`: `k` storage pairs, the
address and slot of each key drawn from the first generator, the value
from the second. -/
def storageLoop (R : RngSpec) : Nat → Nat → Nat → List (PlainKey × PlainValue) × Nat × Nat
  | 0, st1, st2 => ([], st1, st2)
  | k + 1, st1, st2 =>
    let a := R.step st1
    let sl := R.step a.2
    let v := R.step st2
    let rest := storageLoop R k sl.2 v.2
    ((PlainKey.storage a.1 sl.1, PlainValue.storage v.1) :: rest.1, rest.2)

/-- The insertion sequence of `create_random_kv_pairs l`: `l / 2` account
pairs then `l - l / 2` storage pairs; the key generator is seeded with
the constant `SEED`, the value generator with the value `s` obtained from
`thread_rng`. -/
def insertions (R : RngSpec) (s l : Nat) : List (PlainKey × PlainValue) :=
  let acc := accountLoop R (l / 2) (R.init SEED) (R.init s)
  acc.1 ++ (storageLoop R (l - l / 2) acc.2.1 acc.2.2).1

/-- One `HashMap::insert`: overwrite the value of a present key,
otherwise append the new pair. -/
def mapInsert (m : List (PlainKey × PlainValue)) (kv : PlainKey × PlainValue) :
    List (PlainKey × PlainValue) :=
  if m.any (fun e => e.1 == kv.1) then m.map (fun e => if e.1 == kv.1 then kv else e)
  else m ++ [kv]

/-- The map returned by `create_random_kv_pairs`: all insertions folded
into an initially empty map. -/
def createRandomKvPairs (R : RngSpec) (s l : Nat) : List (PlainKey × PlainValue) :=
  (insertions R s l).foldl mapInsert []

/-- Recognizer for an account-shaped key-value pair. -/
def isAccountPair : PlainKey × PlainValue → Bool
  | (PlainKey.account _, PlainValue.account _ _) => true
  | _ => false

/-- Recognizer for a storage-shaped key-value pair. -/
def isStoragePair : PlainKey × PlainValue → Bool
  | (PlainKey.storage _ _, PlainValue.storage _) => true
  | _ => false

/-! ## Basic lemmas -/

theorem getD_eq_get {α : Type} {l : List α} {i : Nat} (h : i < l.length) (d : α) :
    l.getD i d = l[i] := by
  simp [List.getD_eq_getElem?_getD, List.getElem?_eq_getElem h]

theorem twoStepInduction {motive : List Bytes → Prop} (h0 : motive [])
    (h1 : ∀ x, motive [x])
    (h2 : ∀ x y rest, motive rest → motive (x :: y :: rest)) : ∀ L, motive L
  | [] => h0
  | [x] => h1 x
  | x :: y :: rest => h2 x y rest (twoStepInduction h0 h1 h2 rest)

theorem leafCount_zero {sz : Nat} (hsz : 0 < sz) : leafCount sz 0 = 0 := by
  unfold leafCount
  exact Nat.div_eq_of_lt (by omega)

theorem leafCount_of_le {sz len : Nat} (hsz : 0 < sz) (hpos : 0 < len) (hle : len ≤ sz) :
    leafCount sz len = 1 := by
  unfold leafCount
  exact Nat.div_eq_of_lt_le (by omega) (by omega)

theorem leafCount_step {sz len : Nat} (hsz : 0 < sz) (hle : sz ≤ len) :
    leafCount sz len = leafCount sz (len - sz) + 1 := by
  unfold leafCount
  have h1 : len + sz - 1 = (len - 1) + sz := by omega
  have h2 : len - sz + sz - 1 = len - 1 := by omega
  rw [h1, h2, Nat.add_div_right _ hsz]

theorem leafCount_pos_step {sz len : Nat} (hsz : 0 < sz) (hpos : 0 < len) :
    leafCount sz len = leafCount sz (len - sz) + 1 := by
  rcases le_or_lt sz len with h | h
  · exact leafCount_step hsz h
  · have h0 : len - sz = 0 := by omega
    rw [h0, leafCount_zero hsz, leafCount_of_le hsz hpos (by omega)]

theorem le_leafCount_mul {sz len : Nat} (hsz : 0 < sz) : len ≤ leafCount sz len * sz := by
  rcases Nat.eq_zero_or_pos len with h | h
  · simp [h]
  · unfold leafCount
    have hdm := Nat.div_add_mod (len + sz - 1) sz
    have hm : (len + sz - 1) % sz < sz := Nat.mod_lt _ hsz
    rw [Nat.mul_comm]
    omega

theorem leafCount_pos {sz len : Nat} (hsz : 0 < sz) (hpos : 0 < len) :
    0 < leafCount sz len := by
  rw [leafCount_pos_step hsz hpos]
  omega

theorem leafCount_eq_div_add_one {sz len : Nat} (hsz : 0 < sz) (hmod : len % sz ≠ 0) :
    leafCount sz len = len / sz + 1 := by
  have hdm := Nat.div_add_mod len sz
  have hm : len % sz < sz := Nat.mod_lt _ hsz
  unfold leafCount
  have h1 : len + sz - 1 = (len % sz - 1) + sz * (len / sz + 1) := by
    rw [Nat.mul_add, Nat.mul_one]
    omega
  rw [h1, Nat.add_mul_div_left _ _ hsz, Nat.div_eq_of_lt (by omega)]
  omega

theorem treeHeightAux_eq : ∀ fuel n : Nat, n ≤ fuel → treeHeightAux fuel n = Nat.clog 2 n := by
  intro fuel
  induction fuel with
  | zero =>
    intro n hn
    have : n = 0 := by omega
    subst this
    simp [treeHeightAux, Nat.clog_of_right_le_one]
  | succ fuel ih =>
    intro n hn
    by_cases h1 : n ≤ 1
    · simp [treeHeightAux, h1, Nat.clog_of_right_le_one h1]
    · have h2 : 2 ≤ n := by omega
      have hf : (n + 1) / 2 ≤ fuel := by omega
      simp only [treeHeightAux, if_neg h1]
      rw [ih _ hf, Nat.clog_of_two_le (by norm_num) h2]
      norm_num

theorem treeHeight_eq_clog (n : Nat) : treeHeight n = Nat.clog 2 n :=
  treeHeightAux_eq n n le_rfl

theorem le_pow_treeHeight (n : Nat) : n ≤ 2 ^ treeHeight n := by
  rw [treeHeight_eq_clog]
  exact Nat.le_pow_clog (by norm_num) n

theorem treeHeight_le_of_le_pow {n k : Nat} (h : n ≤ 2 ^ k) : treeHeight n ≤ k := by
  rw [treeHeight_eq_clog]
  exact (Nat.le_pow_iff_clog_le (by norm_num)).mp h

/-! ## Chunking lemmas -/

theorem chunks_length (sz : Nat) (b : Bytes) :
    (chunks sz b).length = leafCount sz b.length := by
  simp [chunks]

theorem chunk_length (sz : Nat) (b : Bytes) (i : Nat) :
    (chunk sz b i).length = sz := by
  simp [chunk, zeroPad]

theorem chunks_cons {sz : Nat} (hsz : 0 < sz) {b : Bytes} (hb : b ≠ []) :
    chunks sz b = zeroPad sz (b.take sz) :: chunks sz (b.drop sz) := by
  have hpos : 0 < b.length := List.length_pos.mpr hb
  unfold chunks
  rw [List.length_drop, leafCount_pos_step hsz hpos, List.range_succ_eq_map,
    List.map_cons, List.map_map]
  congr 1
  · simp [chunk]
  · apply List.map_congr_left
    intro j _
    show chunk sz b (j + 1) = chunk sz (b.drop sz) j
    unfold chunk
    rw [List.drop_drop]
    congr 2
    ring

theorem chunks_flatten_aux {sz : Nat} (hsz : 0 < sz) :
    ∀ (fuel : Nat) (b : Bytes), b.length ≤ fuel →
      (chunks sz b).flatten =
        b ++ List.replicate (leafCount sz b.length * sz - b.length) 0 := by
  intro fuel
  induction fuel with
  | zero =>
    intro b hb
    have hb0 : b = [] := by
      cases b with
      | nil => rfl
      | cons x xs => simp at hb
    subst hb0
    simp [chunks, leafCount_zero hsz]
  | succ fuel ih =>
    intro b hb
    rcases eq_or_ne b [] with hb0 | hb0
    · subst hb0
      simp [chunks, leafCount_zero hsz]
    · have hpos : 0 < b.length := List.length_pos.mpr hb0
      rw [chunks_cons hsz hb0, List.flatten_cons,
        ih (b.drop sz) (by rw [List.length_drop]; omega)]
      rw [List.length_drop]
      rcases le_or_lt b.length sz with hle | hlt
      · have hd : b.drop sz = [] := List.drop_eq_nil_of_le hle
        have ht : b.take sz = b := List.take_of_length_le hle
        have h0 : b.length - sz = 0 := by omega
        rw [hd, ht, h0, leafCount_zero hsz, leafCount_of_le hsz hpos hle]
        simp [zeroPad]
      · have ht : (b.take sz).length = sz := by rw [List.length_take]; omega
        have hzp : zeroPad sz (b.take sz) = b.take sz := by
          simp [zeroPad, ht]
        have hstep2 : leafCount sz b.length = leafCount sz (b.length - sz) + 1 :=
          leafCount_step hsz (by omega)
        rw [hzp, ← List.append_assoc, List.take_append_drop, hstep2]
        congr 2
        have hmul : (leafCount sz (b.length - sz) + 1) * sz
            = leafCount sz (b.length - sz) * sz + sz := by ring
        have hge : b.length - sz ≤ leafCount sz (b.length - sz) * sz :=
          le_leafCount_mul hsz
        omega

theorem chunks_flatten {sz : Nat} (hsz : 0 < sz) (b : Bytes) :
    (chunks sz b).flatten =
      b ++ List.replicate (leafCount sz b.length * sz - b.length) 0 :=
  chunks_flatten_aux hsz b.length b le_rfl

theorem chunks_getD {sz : Nat} (b : Bytes) {i : Nat} (hi : i < leafCount sz b.length) :
    (chunks sz b).getD i [] = chunk sz b i := by
  have hlen : i < (chunks sz b).length := by rw [chunks_length]; exact hi
  rw [getD_eq_get hlen]
  simp [chunks]

theorem leaves_getD {sz : Nat} (h : Bytes → Bytes) (b : Bytes) {i : Nat}
    (hi : i < leafCount sz b.length) :
    ((chunks sz b).map h).getD i [] = h (chunk sz b i) := by
  have hlen : i < ((chunks sz b).map h).length := by
    rw [List.length_map, chunks_length]; exact hi
  rw [getD_eq_get hlen]
  simp [chunks]

/-! ## Level compression lemmas -/

theorem sibIdx_add_two (k : Nat) : sibIdx (k + 2) = sibIdx k + 2 := by
  unfold sibIdx
  rcases Nat.mod_two_eq_zero_or_one k with h | h <;>
    simp [h, Nat.add_mod_right] <;> omega

theorem combine_add_two (c : Bytes → Bytes) (k : Nat) (d s : Bytes) :
    combine c (k + 2) d s = combine c k d s := by
  unfold combine
  rw [Nat.add_mod_right]

theorem compressLevel_length (c : Bytes → Bytes) :
    ∀ L : List Bytes, (compressLevel c L).length = (L.length + 1) / 2 := by
  apply twoStepInduction
  · simp [compressLevel]
  · intro x; simp [compressLevel]
  · intro x y rest ih
    simp only [compressLevel, List.length_cons, ih]
    omega

theorem compressLevel_getD (c : Bytes → Bytes) :
    ∀ (L : List Bytes) (i : Nat), i < L.length →
      (compressLevel c L).getD (i / 2) [] = combine c i (L.getD i []) (sibVal L i) := by
  apply twoStepInduction
  · intro i hi; simp at hi
  · intro x i hi
    have hi0 : i = 0 := by simpa using hi
    subst hi0
    simp [compressLevel, sibVal, sibIdx, combine]
  · intro x y rest ih i hi
    match i with
    | 0 => simp [compressLevel, sibVal, sibIdx, combine]
    | 1 => simp [compressLevel, sibVal, sibIdx, combine]
    | (k + 2) =>
      have hk : k < rest.length := by
        simp only [List.length_cons] at hi; omega
      have h2 : (k + 2) / 2 = k / 2 + 1 := by omega
      rw [h2]
      simp only [compressLevel, List.getD_cons_succ]
      rw [ih k hk, combine_add_two]
      have hsib : sibVal (x :: y :: rest) (k + 2) = sibVal rest k := by
        unfold sibVal
        rw [sibIdx_add_two]
        simp only [List.length_cons, List.getD_cons_succ]
        have : sibIdx k + 2 < rest.length + 1 + 1 ↔ sibIdx k < rest.length := by omega
        rw [if_congr this rfl rfl]
      rw [hsib]

/-! ## Round-trip chain lemmas -/

theorem verifyChain_provePath (cs : List (Bytes → Bytes)) :
    ∀ (L : List Bytes) (i : Nat), i < L.length →
      verifyChain cs (provePath cs L i) i (L.getD i []) =
        some ((buildLevels cs L).getD (i / 2 ^ cs.length) []) := by
  induction cs with
  | nil =>
    intro L i hi
    simp [verifyChain, provePath, buildLevels]
  | cons c cs ih =>
    intro L i hi
    have hi2 : i / 2 < (compressLevel c L).length := by
      rw [compressLevel_length]; omega
    simp only [provePath, verifyChain, buildLevels]
    rw [show combine c i (L.getD i []) (sibVal L i) = (compressLevel c L).getD (i / 2) []
        from (compressLevel_getD c L i hi).symm]
    rw [ih (compressLevel c L) (i / 2) hi2]
    congr 2
    rw [Nat.div_div_eq_div_mul, List.length_cons, pow_succ]
    ring_nf

theorem verifyChainPruned_provePath (cs : List (Bytes → Bytes)) :
    ∀ (L : List Bytes) (i : Nat), i < L.length →
      verifyChainPruned cs (provePathPruned cs L i) L.length i (L.getD i []) =
        some ((buildLevels cs L).getD (i / 2 ^ cs.length) []) := by
  induction cs with
  | nil =>
    intro L i hi
    simp [verifyChainPruned, provePathPruned, buildLevels]
  | cons c cs ih =>
    intro L i hi
    have hi2 : i / 2 < (compressLevel c L).length := by
      rw [compressLevel_length]; omega
    have hnext : (L.length + 1) / 2 = (compressLevel c L).length :=
      (compressLevel_length c L).symm
    by_cases hs : sibIdx i < L.length
    · simp only [provePathPruned, verifyChainPruned, if_pos hs]
      have hcomb : combine c i (L.getD i []) (L.getD (sibIdx i) [])
          = (compressLevel c L).getD (i / 2) [] := by
        rw [compressLevel_getD c L i hi]
        unfold sibVal
        rw [if_pos hs]
      rw [hcomb, hnext, ih (compressLevel c L) (i / 2) hi2]
      congr 2
      rw [Nat.div_div_eq_div_mul, List.length_cons, pow_succ]
      ring_nf
    · have heven : i % 2 = 0 := by
        unfold sibIdx at hs
        rcases Nat.mod_two_eq_zero_or_one i with h | h
        · exact h
        · exfalso; rw [if_neg (by omega)] at hs; omega
      simp only [provePathPruned, verifyChainPruned, if_neg hs]
      have hcomb : c (L.getD i [] ++ L.getD i []) = (compressLevel c L).getD (i / 2) [] := by
        rw [compressLevel_getD c L i hi]
        unfold sibVal combine
        rw [if_neg hs, if_pos heven]
      rw [hcomb, hnext, ih (compressLevel c L) (i / 2) hi2]
      congr 2
      rw [Nat.div_div_eq_div_mul, List.length_cons, pow_succ]
      ring_nf

/-! ## Shape lemmas for the verifier -/

theorem verifyChain_isSome (cs : List (Bytes → Bytes)) :
    ∀ (path : List Bytes) (i : Nat) (d : Bytes),
      (verifyChain cs path i d).isSome = true ↔ path.length = cs.length := by
  induction cs with
  | nil =>
    intro path i d
    cases path <;> simp [verifyChain]
  | cons c cs ih =>
    intro path i d
    cases path with
    | nil => simp [verifyChain]
    | cons s rest => simp [verifyChain, ih]

theorem provePath_length (cs : List (Bytes → Bytes)) :
    ∀ (L : List Bytes) (i : Nat), (provePath cs L i).length = cs.length := by
  induction cs with
  | nil => intro L i; simp [provePath]
  | cons c cs ih => intro L i; simp [provePath, ih]

theorem verifyChainPruned_shape (cs : List (Bytes → Bytes)) :
    ∀ (path path' : List Bytes) (n i : Nat) (d d' : Bytes),
      path'.length = path.length →
      (verifyChainPruned cs path n i d).isSome = true →
      (verifyChainPruned cs path' n i d').isSome = true := by
  induction cs with
  | nil =>
    intro path path' n i d d' hlen h
    cases path with
    | nil =>
      have hnil : path' = [] := List.eq_nil_of_length_eq_zero (by simpa using hlen)
      subst hnil
      simp [verifyChainPruned]
    | cons s rest => simp [verifyChainPruned] at h
  | cons c cs ih =>
    intro path path' n i d d' hlen h
    by_cases hs : sibIdx i < n
    · cases path with
      | nil => simp [verifyChainPruned, if_pos hs] at h
      | cons s rest =>
        cases path' with
        | nil => simp at hlen
        | cons s' rest' =>
          simp only [verifyChainPruned, if_pos hs] at h ⊢
          exact ih rest rest' _ _ _ _ (by simpa using hlen) h
    · simp only [verifyChainPruned, if_neg hs] at h ⊢
      exact ih path path' _ _ _ _ hlen h

/-! ## Injectivity propagation lemmas -/

theorem combine_ne (c : Bytes → Bytes) (hc : Function.Injective c) (i : Nat)
    {d d' : Bytes} (s : Bytes) (hne : d ≠ d') : combine c i d s ≠ combine c i d' s := by
  unfold combine
  split <;> intro h <;> apply hne
  · exact List.append_cancel_right (hc h)
  · exact List.append_cancel_left (hc h)

theorem combine_ne_sib (c : Bytes → Bytes) (hc : Function.Injective c) (i : Nat)
    (d : Bytes) {s s' : Bytes} (hne : s ≠ s') : combine c i d s ≠ combine c i d s' := by
  unfold combine
  split <;> intro h <;> apply hne
  · exact List.append_cancel_left (hc h)
  · exact List.append_cancel_right (hc h)

theorem append_self_inj {d d' : Bytes} (h : d ++ d = d' ++ d') : d = d' := by
  have hlen : d.length = d'.length := by
    have hl := congrArg List.length h
    simp only [List.length_append] at hl
    omega
  exact (List.append_inj h hlen).1

theorem verifyChain_ne {cs : List (Bytes → Bytes)}
    (hinj : ∀ c ∈ cs, Function.Injective c) :
    ∀ (path : List Bytes) (i : Nat) (d d' r r' : Bytes), d ≠ d' →
      verifyChain cs path i d = some r → verifyChain cs path i d' = some r' →
      r ≠ r' := by
  induction cs with
  | nil =>
    intro path i d d' r r' hne h h'
    cases path with
    | nil =>
      simp only [verifyChain, Option.some.injEq] at h h'
      subst h; subst h'
      exact hne
    | cons s rest => simp [verifyChain] at h
  | cons c cs ih =>
    intro path i d d' r r' hne h h'
    cases path with
    | nil => simp [verifyChain] at h
    | cons s rest =>
      simp only [verifyChain] at h h'
      exact ih (fun g hg => hinj g (List.mem_cons_of_mem _ hg)) rest (i / 2) _ _ r r'
        (combine_ne c (hinj c (List.mem_cons_self c cs)) i s hne) h h'

theorem verifyChain_set_ne {cs : List (Bytes → Bytes)}
    (hinj : ∀ c ∈ cs, Function.Injective c) :
    ∀ (path : List Bytes) (j i : Nat) (d s' r r' : Bytes), j < path.length →
      s' ≠ path.getD j [] →
      verifyChain cs path i d = some r → verifyChain cs (path.set j s') i d = some r' →
      r ≠ r' := by
  induction cs with
  | nil =>
    intro path j i d s' r r' hj hs h h'
    cases path with
    | nil => simp at hj
    | cons s rest => simp [verifyChain] at h
  | cons c cs ih =>
    intro path j i d s' r r' hj hs h h'
    cases path with
    | nil => simp at hj
    | cons s rest =>
      cases j with
      | zero =>
        rw [List.set_cons_zero] at h'
        simp only [verifyChain] at h h'
        have hss : combine c i d s ≠ combine c i d s' :=
          combine_ne_sib c (hinj c (List.mem_cons_self c cs)) i d
            (fun hE => hs (by simp [hE.symm]))
        exact verifyChain_ne (fun g hg => hinj g (List.mem_cons_of_mem _ hg))
          rest (i / 2) _ _ r r' hss h h'
      | succ j' =>
        rw [List.set_cons_succ] at h'
        simp only [verifyChain] at h h'
        exact ih (fun g hg => hinj g (List.mem_cons_of_mem _ hg)) rest j' (i / 2) _ s' r r'
          (by simpa using hj) (by simpa using hs) h h'

theorem verifyChainPruned_ne {cs : List (Bytes → Bytes)}
    (hinj : ∀ c ∈ cs, Function.Injective c) :
    ∀ (path : List Bytes) (n i : Nat) (d d' r r' : Bytes), d ≠ d' →
      verifyChainPruned cs path n i d = some r →
      verifyChainPruned cs path n i d' = some r' →
      r ≠ r' := by
  induction cs with
  | nil =>
    intro path n i d d' r r' hne h h'
    cases path with
    | nil =>
      simp only [verifyChainPruned, Option.some.injEq] at h h'
      subst h; subst h'
      exact hne
    | cons s rest => simp [verifyChainPruned] at h
  | cons c cs ih =>
    intro path n i d d' r r' hne h h'
    have hc := hinj c (List.mem_cons_self c cs)
    have htail := fun g hg => hinj g (List.mem_cons_of_mem c hg)
    by_cases hs : sibIdx i < n
    · cases path with
      | nil => simp [verifyChainPruned, if_pos hs] at h
      | cons s rest =>
        simp only [verifyChainPruned, if_pos hs] at h h'
        exact ih htail rest _ (i / 2) _ _ r r' (combine_ne c hc i s hne) h h'
    · simp only [verifyChainPruned, if_neg hs] at h h'
      have hdd : c (d ++ d) ≠ c (d' ++ d') := fun hE => hne (append_self_inj (hc hE))
      exact ih htail path _ (i / 2) _ _ r r' hdd h h'

theorem verifyChainPruned_set_ne {cs : List (Bytes → Bytes)}
    (hinj : ∀ c ∈ cs, Function.Injective c) :
    ∀ (path : List Bytes) (j n i : Nat) (d s' r r' : Bytes), j < path.length →
      s' ≠ path.getD j [] →
      verifyChainPruned cs path n i d = some r →
      verifyChainPruned cs (path.set j s') n i d = some r' →
      r ≠ r' := by
  induction cs with
  | nil =>
    intro path j n i d s' r r' hj hs h h'
    cases path with
    | nil => simp at hj
    | cons s rest => simp [verifyChainPruned] at h
  | cons c cs ih =>
    intro path j n i d s' r r' hj hs h h'
    have hc := hinj c (List.mem_cons_self c cs)
    have htail := fun g hg => hinj g (List.mem_cons_of_mem c hg)
    by_cases hsb : sibIdx i < n
    · cases path with
      | nil => simp at hj
      | cons s rest =>
        cases j with
        | zero =>
          rw [List.set_cons_zero] at h'
          simp only [verifyChainPruned, if_pos hsb] at h h'
          have hss : combine c i d s ≠ combine c i d s' :=
            combine_ne_sib c hc i d (fun hE => hs (by simp [hE.symm]))
          exact verifyChainPruned_ne htail rest _ (i / 2) _ _ r r' hss h h'
        | succ j' =>
          rw [List.set_cons_succ] at h'
          simp only [verifyChainPruned, if_pos hsb] at h h'
          exact ih htail rest j' _ (i / 2) _ s' r r' (by simpa using hj)
            (by simpa using hs) h h'
    · simp only [verifyChainPruned, if_neg hsb] at h h'
      exact ih htail path j _ (i / 2) _ s' r r' hj hs h h'

/-! ## Tree height and collapse lemmas -/

theorem treeHeight_of_le_one {n : Nat} (hn : n ≤ 1) : treeHeight n = 0 := by
  rw [treeHeight_eq_clog]
  exact Nat.clog_of_right_le_one hn 2

theorem treeHeight_pos {n : Nat} (hn : 2 ≤ n) : 0 < treeHeight n := by
  rw [treeHeight_eq_clog]
  exact Nat.clog_pos (by norm_num) hn

theorem treeHeight_step {n : Nat} (hn : 2 ≤ n) :
    treeHeight n = treeHeight ((n + 1) / 2) + 1 := by
  rw [treeHeight_eq_clog, treeHeight_eq_clog, Nat.clog_of_two_le (by norm_num) hn]
  norm_num

theorem buildLevels_length_one (cs : List (Bytes → Bytes)) :
    ∀ L : List Bytes, cs.length = treeHeight L.length → 0 < L.length →
      (buildLevels cs L).length = 1 := by
  induction cs with
  | nil =>
    intro L hcs hpos
    simp only [buildLevels]
    have hle : L.length ≤ 1 := by
      by_contra hgt
      push_neg at hgt
      have : 0 < treeHeight L.length := treeHeight_pos (by omega)
      simp only [List.length_nil] at hcs
      omega
    omega
  | cons c cs ih =>
    intro L hcs hpos
    have h2 : 2 ≤ L.length := by
      by_contra hlt
      push_neg at hlt
      have h0 : treeHeight L.length = 0 := treeHeight_of_le_one (by omega)
      rw [h0] at hcs
      simp at hcs
    simp only [buildLevels]
    apply ih
    · rw [compressLevel_length]
      have hstep := treeHeight_step h2
      simp only [List.length_cons] at hcs
      omega
    · rw [compressLevel_length]
      omega

/-- The honest verification chains (pruned and full) both recompute the
built root. -/
theorem honest_chain (h : Bytes → Bytes) (cs : List (Bytes → Bytes)) (sz : Nat)
    (input : Bytes) (i : Nat) (hsz : 0 < sz) (hi : i < leafCount sz input.length)
    (hcs : cs.length = treeHeight (leafCount sz input.length)) :
    verifyChain cs (provePath cs ((chunks sz input).map h) i) i (h (chunk sz input i)) =
      some (buildRoot h cs sz input) ∧
    verifyChainPruned cs (provePathPruned cs ((chunks sz input).map h) i)
      (leafCount sz input.length) i (h (chunk sz input i)) =
      some (buildRoot h cs sz input) := by
  have hlen : ((chunks sz input).map h).length = leafCount sz input.length := by
    rw [List.length_map, chunks_length]
  have hi' : i < ((chunks sz input).map h).length := by rw [hlen]; exact hi
  have hleaf : h (chunk sz input i) = ((chunks sz input).map h).getD i [] :=
    (leaves_getD h input hi).symm
  have hzero : i / 2 ^ cs.length = 0 := by
    apply Nat.div_eq_of_lt
    calc i < leafCount sz input.length := hi
      _ ≤ 2 ^ treeHeight (leafCount sz input.length) := le_pow_treeHeight _
      _ = 2 ^ cs.length := by rw [hcs]
  constructor
  · rw [hleaf, verifyChain_provePath cs _ i hi', hzero]
    rfl
  · rw [hleaf, ← hlen, verifyChainPruned_provePath cs _ i hi', hzero]
    rfl

/-! ## Batched hashing lemmas -/

theorem length_flatten_replicate (n : Nat) (r : Bytes) :
    (List.flatten (List.replicate n r)).length = n * r.length := by
  induction n with
  | zero => simp
  | succ n ih =>
    rw [List.replicate_succ, List.flatten_cons, List.length_append, ih]
    ring

theorem drop_flatten_replicate (r : Bytes) :
    ∀ (j n : Nat), j ≤ n →
      (List.flatten (List.replicate n r)).drop (j * r.length) =
        List.flatten (List.replicate (n - j) r) := by
  intro j
  induction j with
  | zero => intro n hn; simp
  | succ j ih =>
    intro n hn
    cases n with
    | zero => omega
    | succ n =>
      rw [List.replicate_succ, List.flatten_cons]
      have hmul : (j + 1) * r.length = r.length + j * r.length := by ring
      rw [hmul, ← List.drop_drop, List.drop_left]
      have hsub : n + 1 - (j + 1) = n - j := by omega
      rw [hsub]
      exact ih n (by omega)

theorem take_flatten_replicate (r : Bytes) {n : Nat} (hn : 0 < n) :
    (List.flatten (List.replicate n r)).take r.length = r := by
  cases n with
  | zero => omega
  | succ n => rw [List.replicate_succ, List.flatten_cons, List.take_left]

theorem records_flatten_replicate (r : Bytes) (n : Nat) (hr : 0 < r.length) :
    records r.length (List.flatten (List.replicate n r)) = List.replicate n r := by
  unfold records
  rw [length_flatten_replicate, Nat.mul_div_cancel _ hr]
  apply List.ext_getElem
  · simp
  · intro j h1 h2
    simp only [List.getElem_map, List.getElem_range, List.getElem_replicate]
    have hjn : j < n := by simpa using h1
    rw [drop_flatten_replicate r j n (le_of_lt hjn),
      take_flatten_replicate r (by omega)]

/-! ## Key-value generator lemmas -/

theorem accountLoop_keys (R : RngSpec) :
    ∀ (k st1 st2 st2' : Nat),
      (accountLoop R k st1 st2).1.map Prod.fst =
        (accountLoop R k st1 st2').1.map Prod.fst ∧
      (accountLoop R k st1 st2).2.1 = (accountLoop R k st1 st2').2.1 := by
  intro k
  induction k with
  | zero => intro st1 st2 st2'; simp [accountLoop]
  | succ k ih =>
    intro st1 st2 st2'
    simp only [accountLoop, List.map_cons]
    have := ih (R.step st1).2 (R.step (R.step st2).2).2 (R.step (R.step st2').2).2
    exact ⟨by rw [this.1], this.2⟩

theorem storageLoop_keys (R : RngSpec) :
    ∀ (k st1 st2 st2' : Nat),
      (storageLoop R k st1 st2).1.map Prod.fst =
        (storageLoop R k st1 st2').1.map Prod.fst := by
  intro k
  induction k with
  | zero => intro st1 st2 st2'; simp [storageLoop]
  | succ k ih =>
    intro st1 st2 st2'
    simp only [storageLoop, List.map_cons]
    rw [ih (R.step (R.step st1).2).2 (R.step st2).2 (R.step st2').2]

theorem accountLoop_length (R : RngSpec) :
    ∀ (k st1 st2 : Nat), (accountLoop R k st1 st2).1.length = k := by
  intro k
  induction k with
  | zero => intro st1 st2; simp [accountLoop]
  | succ k ih => intro st1 st2; simp [accountLoop, ih]

theorem storageLoop_length (R : RngSpec) :
    ∀ (k st1 st2 : Nat), (storageLoop R k st1 st2).1.length = k := by
  intro k
  induction k with
  | zero => intro st1 st2; simp [storageLoop]
  | succ k ih => intro st1 st2; simp [storageLoop, ih]

theorem accountLoop_all (R : RngSpec) :
    ∀ (k st1 st2 : Nat), (accountLoop R k st1 st2).1.all isAccountPair = true := by
  intro k
  induction k with
  | zero => intro st1 st2; simp [accountLoop]
  | succ k ih => intro st1 st2; simp [accountLoop, isAccountPair, ih]

theorem storageLoop_all (R : RngSpec) :
    ∀ (k st1 st2 : Nat), (storageLoop R k st1 st2).1.all isStoragePair = true := by
  intro k
  induction k with
  | zero => intro st1 st2; simp [storageLoop]
  | succ k ih => intro st1 st2; simp [storageLoop, isStoragePair, ih]

theorem mapInsert_length (m : List (PlainKey × PlainValue)) (kv : PlainKey × PlainValue) :
    (mapInsert m kv).length ≤ m.length + 1 := by
  unfold mapInsert
  split
  · rw [List.length_map]; omega
  · rw [List.length_append]; simp

theorem foldl_mapInsert_length :
    ∀ (xs : List (PlainKey × PlainValue)) (m : List (PlainKey × PlainValue)),
      (xs.foldl mapInsert m).length ≤ m.length + xs.length := by
  intro xs
  induction xs with
  | nil => intro m; simp
  | cons x xs ih =>
    intro m
    simp only [List.foldl_cons, List.length_cons]
    calc ((xs.foldl mapInsert (mapInsert m x)).length)
        ≤ (mapInsert m x).length + xs.length := ih _
      _ ≤ m.length + 1 + xs.length := by
          have := mapInsert_length m x
          omega
      _ = m.length + (xs.length + 1) := by omega

theorem insertions_length (R : RngSpec) (s l : Nat) : (insertions R s l).length = l := by
  unfold insertions
  rw [List.length_append, accountLoop_length, storageLoop_length]
  omega

theorem insertions_keys (R : RngSpec) (s1 s2 l : Nat) :
    (insertions R s1 l).map Prod.fst = (insertions R s2 l).map Prod.fst := by
  unfold insertions
  rw [List.map_append, List.map_append]
  have hacc := accountLoop_keys R (l / 2) (R.init SEED) (R.init s1) (R.init s2)
  rw [hacc.1, hacc.2]
  congr 1
  exact storageLoop_keys R (l - l / 2) _ _ _

theorem insertions_take (R : RngSpec) (s l : Nat) :
    ((insertions R s l).take (l / 2)).all isAccountPair = true := by
  unfold insertions
  rw [List.take_left' (accountLoop_length R (l / 2) _ _)]
  exact accountLoop_all R (l / 2) _ _

theorem insertions_drop (R : RngSpec) (s l : Nat) :
    ((insertions R s l).drop (l / 2)).all isStoragePair = true := by
  unfold insertions
  rw [List.drop_left' (accountLoop_length R (l / 2) _ _)]
  exact storageLoop_all R (l - l / 2) _ _

/-! ## Claim theorems -/

/-- C1: for every input accepted by the builder (positive leaf size,
schedule of length `ceil(log2(leaf_count)) + 1`) and every valid leaf
index `i`, verifying the proof generated for leaf `i` against the tree's
root returns `true`, both for pruned and for full proofs. -/
theorem round_trip (h : Bytes → Bytes) (cs : List (Bytes → Bytes)) (sz : Nat)
    (input : Bytes) (i : Nat) (pr : Bool) (hsz : 0 < sz)
    (hi : i < leafCount sz input.length)
    (hcs : cs.length = treeHeight (leafCount sz input.length)) :
    verify h cs (leafCount sz input.length) (prove h cs sz input i pr) = .ok true := by
  have hchain := honest_chain h cs sz input i hsz hi hcs
  cases pr with
  | false =>
    simp only [verify, prove, Bool.false_eq_true, if_false]
    rw [hchain.1]
    simp
  | true =>
    simp only [verify, prove, if_true]
    rw [hchain.2]
    simp

/-- Witness for C1: a concrete two-leaf tree with injected toy hashers,
opening leaf 1 as a pruned proof. -/
theorem round_trip_witness :
    verify (fun b => 0 :: b) [fun b => 1 :: b] (leafCount 1 [5, 7].length)
      (prove (fun b => 0 :: b) [fun b => 1 :: b] 1 [5, 7] 1 true) = .ok true :=
  round_trip (fun b => 0 :: b) [fun b => 1 :: b] 1 [5, 7] 1 true (by decide)
    (by decide) (by decide)

/-- C2: when the input length is not a multiple of the leaf size, the
builder produces `ceil(len/leaf_size)` leaves, each chunk has the full
leaf size, and the chunks concatenate back to the input followed by zero
padding — no trailing byte is truncated. -/
theorem padding_ceil_leaves (sz : Nat) (b : Bytes) (j : Nat) (hsz : 0 < sz)
    (hmod : b.length % sz ≠ 0) (hj : j < leafCount sz b.length) :
    leafCount sz b.length = b.length / sz + 1 ∧
    (chunks sz b).length = leafCount sz b.length ∧
    ((chunks sz b).getD j []).length = sz ∧
    (chunks sz b).flatten =
      b ++ List.replicate (leafCount sz b.length * sz - b.length) 0 := by
  refine ⟨leafCount_eq_div_add_one hsz hmod, chunks_length sz b, ?_, chunks_flatten hsz b⟩
  rw [chunks_getD b hj, chunk_length]

/-- Witness for C2: three bytes in chunks of two give two leaves, the
second zero-padded. -/
theorem padding_ceil_leaves_witness :
    leafCount 2 [1, 2, 3].length = [1, 2, 3].length / 2 + 1 ∧
    (chunks 2 [1, 2, 3]).length = leafCount 2 [1, 2, 3].length ∧
    ((chunks 2 [1, 2, 3]).getD 1 []).length = 2 ∧
    (chunks 2 [1, 2, 3]).flatten =
      [1, 2, 3] ++ List.replicate (leafCount 2 [1, 2, 3].length * 2 - [1, 2, 3].length) 0 :=
  padding_ceil_leaves 2 [1, 2, 3] 1 (by decide) (by decide) (by decide)

/-- C3: the tree height is `ceil(log2(leaf_count))` (the least `k` with
`leaf_count ≤ 2^k`), an accepted layer schedule has `H + 1` entries, the
built tree collapses to a single root digest after exactly `H`
compression levels, an honest proof path has `H` entries, and a full
proof verifies without a shape error exactly when its path has `H`
entries (verification traverses `H` levels). -/
theorem height_invariant (h : Bytes → Bytes) (cs : List (Bytes → Bytes)) (sz : Nat)
    (input : Bytes) (i k : Nat) (path : List Bytes) (d : Bytes)
    (hsz : 0 < sz) (hpos : 0 < input.length)
    (hcs : cs.length = treeHeight (leafCount sz input.length))
    (hi : i < leafCount sz input.length)
    (hk : leafCount sz input.length ≤ 2 ^ k) :
    leafCount sz input.length ≤ 2 ^ treeHeight (leafCount sz input.length) ∧
    treeHeight (leafCount sz input.length) ≤ k ∧
    buildE (h :: cs) sz input = .ok (buildRoot h cs sz input) ∧
    (h :: cs).length = treeHeight (leafCount sz input.length) + 1 ∧
    (buildLevels cs ((chunks sz input).map h)).length = 1 ∧
    (provePath cs ((chunks sz input).map h) i).length =
      treeHeight (leafCount sz input.length) ∧
    ((verifyChain cs path i d).isSome = true ↔
      path.length = treeHeight (leafCount sz input.length)) := by
  have hlen : ((chunks sz input).map h).length = leafCount sz input.length := by
    rw [List.length_map, chunks_length]
  refine ⟨le_pow_treeHeight _, treeHeight_le_of_le_pow hk, ?_, ?_, ?_, ?_, ?_⟩
  · simp only [buildE]
    rw [if_neg (by omega), if_pos hcs]
  · rw [List.length_cons, hcs]
  · exact buildLevels_length_one cs _ (by rw [hlen]; exact hcs)
      (by rw [hlen]; exact leafCount_pos hsz hpos)
  · rw [provePath_length, hcs]
  · rw [verifyChain_isSome, hcs]

/-- Witness for C3: a two-leaf tree of height 1 with a one-entry path. -/
theorem height_invariant_witness :
    leafCount 1 [3, 4].length ≤ 2 ^ treeHeight (leafCount 1 [3, 4].length) ∧
    treeHeight (leafCount 1 [3, 4].length) ≤ 5 ∧
    buildE ((fun b => 0 :: b) :: [fun b => 1 :: b]) 1 [3, 4] =
      .ok (buildRoot (fun b => 0 :: b) [fun b => 1 :: b] 1 [3, 4]) ∧
    ((fun (b : Bytes) => 0 :: b) :: [fun b => 1 :: b]).length =
      treeHeight (leafCount 1 [3, 4].length) + 1 ∧
    (buildLevels [fun b => 1 :: b] ((chunks 1 [3, 4]).map (fun b => 0 :: b))).length = 1 ∧
    (provePath [fun b => 1 :: b] ((chunks 1 [3, 4]).map (fun b => 0 :: b)) 0).length =
      treeHeight (leafCount 1 [3, 4].length) ∧
    ((verifyChain [fun b => 1 :: b] [[9]] 0 [2]).isSome = true ↔
      [[9]].length = treeHeight (leafCount 1 [3, 4].length)) :=
  height_invariant (fun b => 0 :: b) [fun b => 1 :: b] 1 [3, 4] 0 5 [[9]] [2]
    (by decide) (by decide) (by decide) (by decide) (by decide)

/-- C6: building is deterministic — equal inputs with the same schedule
give bit-identical roots — and verification is deterministic: identical
proof and schedule inputs give the same result. -/
theorem determinism (h : Bytes → Bytes) (cs : List (Bytes → Bytes)) (sz n : Nat)
    (in1 in2 : Bytes) (p1 p2 : MerkleProof) (hin : in1 = in2) (hp : p1 = p2) :
    buildRoot h cs sz in1 = buildRoot h cs sz in2 ∧
    verify h cs n p1 = verify h cs n p2 := by
  subst hin
  subst hp
  exact ⟨rfl, rfl⟩

/-- Witness for C6: the determinism theorem applied at a concrete build
and proof. -/
theorem determinism_witness :
    buildRoot (fun b => 0 :: b) [fun b => 1 :: b] 1 [5, 7] =
      buildRoot (fun b => 0 :: b) [fun b => 1 :: b] 1 [5, 7] ∧
    verify (fun b => 0 :: b) [fun b => 1 :: b] 2
        (prove (fun b => 0 :: b) [fun b => 1 :: b] 1 [5, 7] 0 false) =
      verify (fun b => 0 :: b) [fun b => 1 :: b] 2
        (prove (fun b => 0 :: b) [fun b => 1 :: b] 1 [5, 7] 0 false) :=
  determinism (fun b => 0 :: b) [fun b => 1 :: b] 1 2 [5, 7] [5, 7]
    (prove (fun b => 0 :: b) [fun b => 1 :: b] 1 [5, 7] 0 false)
    (prove (fun b => 0 :: b) [fun b => 1 :: b] 1 [5, 7] 0 false) rfl rfl

/-- C7: a single-leaf tree has height 0, its root is the digest of the
single (padded) leaf, the proof's sibling path is empty, and
verification succeeds. -/
theorem single_leaf_tree (h : Bytes → Bytes) (sz : Nat) (input : Bytes) (pr : Bool)
    (hsz : 0 < sz) (hpos : 0 < input.length) (hle : input.length ≤ sz) :
    leafCount sz input.length = 1 ∧
    treeHeight (leafCount sz input.length) = 0 ∧
    buildRoot h [] sz input = h (zeroPad sz input) ∧
    (prove h [] sz input 0 pr).path = [] ∧
    verify h [] 1 (prove h [] sz input 0 pr) = .ok true := by
  have h1 : leafCount sz input.length = 1 := leafCount_of_le hsz hpos hle
  have hch : chunk sz input 0 = zeroPad sz input := by
    unfold chunk
    rw [Nat.zero_mul, List.drop_zero, List.take_of_length_le hle]
  have hchunks : chunks sz input = [zeroPad sz input] := by
    unfold chunks
    rw [h1, show List.range 1 = [0] from rfl, List.map_cons, List.map_nil, hch]
  have hroot : buildRoot h [] sz input = h (zeroPad sz input) := by
    unfold buildRoot buildLevels
    rw [hchunks]
    rfl
  refine ⟨h1, by rw [h1]; rfl, hroot, ?_, ?_⟩
  · cases pr <;> simp [prove, provePath, provePathPruned]
  · cases pr <;>
      simp [verify, prove, provePath, provePathPruned, verifyChain, verifyChainPruned,
        hch, hroot]

theorem verify_of_chain_some (h : Bytes → Bytes) (cs : List (Bytes → Bytes)) (n : Nat)
    (p : MerkleProof) (r : Bytes)
    (hch : (if p.pruned then verifyChainPruned cs p.path n p.leafIdx (h p.leaf)
            else verifyChain cs p.path p.leafIdx (h p.leaf)) = some r) :
    verify h cs n p = .ok (decide (r = p.root)) := by
  unfold verify
  rw [hch]

theorem verify_of_chain_none (h : Bytes → Bytes) (cs : List (Bytes → Bytes)) (n : Nat)
    (p : MerkleProof)
    (hch : (if p.pruned then verifyChainPruned cs p.path n p.leafIdx (h p.leaf)
            else verifyChain cs p.path p.leafIdx (h p.leaf)) = none) :
    verify h cs n p = .error .SchemaMismatch := by
  unfold verify
  rw [hch]

/-- C5: replacing the opened leaf content, the claimed root, or any
sibling digest of the path of an honestly generated proof by a different
value makes `verify` return `false`, under injectivity (collision
freedom) of the per-level hash functions. -/
theorem tamper_sensitivity (h : Bytes → Bytes) (cs : List (Bytes → Bytes)) (sz : Nat)
    (input : Bytes) (i j : Nat) (pr : Bool) (p : MerkleProof) (leaf' root' s' : Bytes)
    (hp : p = prove h cs sz input i pr)
    (hsz : 0 < sz) (hi : i < leafCount sz input.length)
    (hcs : cs.length = treeHeight (leafCount sz input.length))
    (hinjh : Function.Injective h) (hinjc : ∀ c ∈ cs, Function.Injective c)
    (hleaf : leaf' ≠ p.leaf) (hroot : root' ≠ p.root)
    (hj : j < p.path.length) (hs : s' ≠ p.path.getD j []) :
    verify h cs (leafCount sz input.length) { p with leaf := leaf' } = .ok false ∧
    verify h cs (leafCount sz input.length) { p with root := root' } = .ok false ∧
    verify h cs (leafCount sz input.length) { p with path := p.path.set j s' } =
      .ok false := by
  subst hp
  have hchain := honest_chain h cs sz input i hsz hi hcs
  have hlne : h leaf' ≠ h (chunk sz input i) := by
    intro hE
    apply hleaf
    simpa [prove] using hinjh hE
  cases pr with
  | false =>
    simp only [prove, Bool.false_eq_true, if_false] at hleaf hroot hj hs ⊢
    refine ⟨?_, ?_, ?_⟩
    · have hsome : (verifyChain cs (provePath cs ((chunks sz input).map h) i) i
          (h leaf')).isSome = true :=
        (verifyChain_isSome cs _ i _).mpr (provePath_length cs _ i)
      obtain ⟨r1, hr1⟩ := Option.isSome_iff_exists.mp hsome
      have hne1 : r1 ≠ buildRoot h cs sz input :=
        verifyChain_ne hinjc _ i (h leaf') (h (chunk sz input i)) r1
          (buildRoot h cs sz input) hlne hr1 hchain.1
      rw [verify_of_chain_some h cs _ _ r1
        (by simp only [prove, Bool.false_eq_true, if_false]; exact hr1)]
      simp only [prove]
      rw [decide_eq_false hne1]
    · rw [verify_of_chain_some h cs _ _ (buildRoot h cs sz input)
        (by simp only [prove, Bool.false_eq_true, if_false]; exact hchain.1)]
      simp only [prove]
      rw [decide_eq_false (fun hE => hroot hE.symm)]
    · have hsome : (verifyChain cs ((provePath cs ((chunks sz input).map h) i).set j s') i
          (h (chunk sz input i))).isSome = true :=
        (verifyChain_isSome cs _ i _).mpr
          (by rw [List.length_set, provePath_length])
      obtain ⟨r3, hr3⟩ := Option.isSome_iff_exists.mp hsome
      have hne3 : buildRoot h cs sz input ≠ r3 :=
        verifyChain_set_ne hinjc _ j i (h (chunk sz input i)) s'
          (buildRoot h cs sz input) r3 hj hs hchain.1 hr3
      rw [verify_of_chain_some h cs _ _ r3
        (by simp only [prove, Bool.false_eq_true, if_false]; exact hr3)]
      simp only [prove]
      rw [decide_eq_false (fun hE => hne3 hE.symm)]
  | true =>
    simp only [prove, if_true] at hleaf hroot hj hs ⊢
    have honestSome : (verifyChainPruned cs (provePathPruned cs ((chunks sz input).map h) i)
        (leafCount sz input.length) i (h (chunk sz input i))).isSome = true := by
      rw [hchain.2]; rfl
    refine ⟨?_, ?_, ?_⟩
    · have hsome : (verifyChainPruned cs (provePathPruned cs ((chunks sz input).map h) i)
          (leafCount sz input.length) i (h leaf')).isSome = true :=
        verifyChainPruned_shape cs _ _ _ i _ _ rfl honestSome
      obtain ⟨r1, hr1⟩ := Option.isSome_iff_exists.mp hsome
      have hne1 : r1 ≠ buildRoot h cs sz input :=
        verifyChainPruned_ne hinjc _ _ i (h leaf') (h (chunk sz input i)) r1
          (buildRoot h cs sz input) hlne hr1 hchain.2
      rw [verify_of_chain_some h cs _ _ r1
        (by simp only [prove, if_true]; exact hr1)]
      simp only [prove]
      rw [decide_eq_false hne1]
    · rw [verify_of_chain_some h cs _ _ (buildRoot h cs sz input)
        (by simp only [prove, if_true]; exact hchain.2)]
      simp only [prove]
      rw [decide_eq_false (fun hE => hroot hE.symm)]
    · have hsome : (verifyChainPruned cs
          ((provePathPruned cs ((chunks sz input).map h) i).set j s')
          (leafCount sz input.length) i (h (chunk sz input i))).isSome = true :=
        verifyChainPruned_shape cs _ _ _ i _ _ (List.length_set _ _ _) honestSome
      obtain ⟨r3, hr3⟩ := Option.isSome_iff_exists.mp hsome
      have hne3 : buildRoot h cs sz input ≠ r3 :=
        verifyChainPruned_set_ne hinjc _ j _ i (h (chunk sz input i)) s'
          (buildRoot h cs sz input) r3 hj hs hchain.2 hr3
      rw [verify_of_chain_some h cs _ _ r3
        (by simp only [prove, if_true]; exact hr3)]
      simp only [prove]
      rw [decide_eq_false (fun hE => hne3 hE.symm)]

/-- Witness for C7: a one-byte input with leaf size two. -/
theorem single_leaf_tree_witness :
    leafCount 2 [7].length = 1 ∧
    treeHeight (leafCount 2 [7].length) = 0 ∧
    buildRoot (fun b => 0 :: b) [] 2 [7] = (fun (b : Bytes) => 0 :: b) (zeroPad 2 [7]) ∧
    (prove (fun b => 0 :: b) [] 2 [7] 0 true).path = [] ∧
    verify (fun b => 0 :: b) [] 1 (prove (fun b => 0 :: b) [] 2 [7] 0 true) = .ok true :=
  single_leaf_tree (fun b => 0 :: b) 2 [7] true (by decide) (by decide) (by decide)

/-- Witness for C5: a two-leaf tree with injective (identity) hashers;
tampering with the leaf, the root, or the single path entry each yields
`ok false`. -/
theorem tamper_sensitivity_witness :
    verify (fun b => b) [fun b => b] (leafCount 1 [3, 4].length)
      { prove (fun b => b) [fun b => b] 1 [3, 4] 0 false with leaf := [9] } = .ok false ∧
    verify (fun b => b) [fun b => b] (leafCount 1 [3, 4].length)
      { prove (fun b => b) [fun b => b] 1 [3, 4] 0 false with root := [] } = .ok false ∧
    verify (fun b => b) [fun b => b] (leafCount 1 [3, 4].length)
      { prove (fun b => b) [fun b => b] 1 [3, 4] 0 false with
        path := (prove (fun b => b) [fun b => b] 1 [3, 4] 0 false).path.set 0 [5] } =
      .ok false :=
  tamper_sensitivity (fun b => b) [fun b => b] 1 [3, 4] 0 0 false
    (prove (fun b => b) [fun b => b] 1 [3, 4] 0 false) [9] [] [5] rfl
    (by decide) (by decide) (by decide) (fun a b hab => hab)
    (by
      intro c hc
      rw [List.mem_singleton] at hc
      subst hc
      exact fun a b hab => hab)
    (by decide) (by decide) (by decide) (by decide)

/-- C8: failures are explicit error results — a schedule of the wrong
length is a `ConfigError`, an out-of-range leaf index is an
`IndexOutOfRange`, a shape-mismatched proof is a `SchemaMismatch` — and
`verify` distinguishes rejection from malformedness: a shape-valid proof
whose root does not match yields `ok false`, not an error. -/
theorem error_reporting (schedule : List (Bytes → Bytes)) (h : Bytes → Bytes)
    (cs : List (Bytes → Bytes)) (sz : Nat) (input : Bytes) (i i' n : Nat)
    (pr pr' : Bool) (p : MerkleProof) (root' : Bytes)
    (hsz : 0 < sz)
    (hbad : schedule.length ≠ treeHeight (leafCount sz input.length) + 1)
    (hioob : leafCount sz input.length ≤ i)
    (hpr : p.pruned = false) (hplen : p.path.length ≠ cs.length)
    (hi' : i' < leafCount sz input.length)
    (hcs : cs.length = treeHeight (leafCount sz input.length))
    (hroot : root' ≠ (prove h cs sz input i' pr').root) :
    buildE schedule sz input = .error .ConfigError ∧
    proveE h cs sz input i pr = .error .IndexOutOfRange ∧
    verify h cs n p = .error .SchemaMismatch ∧
    verify h cs (leafCount sz input.length)
      { prove h cs sz input i' pr' with root := root' } = .ok false := by
  have hchain := honest_chain h cs sz input i' hsz hi' hcs
  refine ⟨?_, ?_, ?_, ?_⟩
  · cases schedule with
    | nil => rfl
    | cons h0 cs0 =>
      simp only [buildE]
      rw [if_neg (by omega), if_neg (by simp only [List.length_cons] at hbad; omega)]
  · simp only [proveE]
    rw [if_neg (by omega)]
  · apply verify_of_chain_none
    rw [hpr]
    simp only [Bool.false_eq_true, if_false]
    cases hvc : verifyChain cs p.path p.leafIdx (h p.leaf) with
    | none => rfl
    | some r =>
      exact absurd ((verifyChain_isSome cs p.path p.leafIdx (h p.leaf)).mp
        (by rw [hvc]; rfl)) hplen
  · simp only [prove] at hroot
    cases pr' with
    | false =>
      rw [verify_of_chain_some h cs _ _ (buildRoot h cs sz input)
        (by simp only [prove, Bool.false_eq_true, if_false]; exact hchain.1)]
      simp only [prove]
      rw [decide_eq_false (fun hE => hroot hE.symm)]
    | true =>
      rw [verify_of_chain_some h cs _ _ (buildRoot h cs sz input)
        (by simp only [prove, if_true]; exact hchain.2)]
      simp only [prove]
      rw [decide_eq_false (fun hE => hroot hE.symm)]

/-- Witness for C8: an empty schedule, an out-of-range index, an
empty-path unpruned proof against a one-compressor schedule, and a
root-tampered honest proof. -/
theorem error_reporting_witness :
    buildE ([] : List (Bytes → Bytes)) 1 [3, 4] = .error .ConfigError ∧
    proveE (fun b => b) [fun b => b] 1 [3, 4] 5 false = .error .IndexOutOfRange ∧
    verify (fun b => b) [fun b => b] 7 ⟨[3], 0, [9], false, []⟩ =
      .error .SchemaMismatch ∧
    verify (fun b => b) [fun b => b] (leafCount 1 [3, 4].length)
      { prove (fun b => b) [fun b => b] 1 [3, 4] 0 false with root := [] } = .ok false :=
  error_reporting ([] : List (Bytes → Bytes)) (fun b => b) [fun b => b] 1 [3, 4] 5 0 7
    false false ⟨[3], 0, [9], false, []⟩ [] (by decide) (by decide) (by decide)
    (by decide) (by decide) (by decide) (by decide) (by decide)

/-- C4: batched hashing is semantically equivalent to sequential
per-record hashing — batch-hashing the `n`-fold repetition of a record
is the concatenation of the per-record digests, and each of the `n`
output slots of `output_size()` bytes holds the digest of the single
record. -/
theorem batch_hash_equiv (h : Hasher) (r : Bytes) (n j : Nat)
    (hout : ∀ x, (h.run x).length = h.outputSize) (hr : 0 < r.length) (hj : j < n) :
    batchHash h r.length (List.flatten (List.replicate n r)) =
      ((List.replicate n r).map h.run).flatten ∧
    outputSlot h (batchHash h r.length (List.flatten (List.replicate n r))) j =
      h.run r := by
  have hrec := records_flatten_replicate r n hr
  constructor
  · unfold batchHash
    rw [hrec]
  · unfold batchHash outputSlot
    rw [hrec, List.map_replicate, ← hout r,
      drop_flatten_replicate (h.run r) j n (le_of_lt hj),
      take_flatten_replicate (h.run r) (by omega)]

/-- Witness for C4: two repetitions of a two-byte record under a toy
length-counting hasher of output size one. -/
theorem batch_hash_equiv_witness :
    batchHash (Hasher.mk 1 (fun b => [b.length])) [4, 5].length
        (List.flatten (List.replicate 2 [4, 5])) =
      ((List.replicate 2 [4, 5]).map (Hasher.mk 1 (fun b => [b.length])).run).flatten ∧
    outputSlot (Hasher.mk 1 (fun b => [b.length]))
        (batchHash (Hasher.mk 1 (fun b => [b.length])) [4, 5].length
          (List.flatten (List.replicate 2 [4, 5]))) 1 =
      (Hasher.mk 1 (fun b => [b.length])).run [4, 5] :=
  batch_hash_equiv (Hasher.mk 1 (fun b => [b.length])) [4, 5] 2 1 (fun x => rfl)
    (by decide) (by decide)

/-- C9: in the embedded straight-line call sequence of `main`, the
Merkle-tree example is never invoked, and after device setup the only
call is the batched Keccak hashing example. -/
theorem main_never_merkle :
    Call.merkleExample ∉ mainCalls ∧
    (mainCalls.dropWhile (fun c => !(c == Call.setupDevice))).tail =
      [Call.keccakExample] := by
  decide

/-- C10: the sequence of generated keys is identical across any two
calls — the key generator is seeded with the fixed constant `SEED` —
while the values may differ between calls (the value generator is seeded
from `thread_rng`); exactly `l` pairs are inserted, the first `l / 2`
account pairs and the remaining `l - l / 2` storage pairs, so the
returned map holds at most `l` entries. -/
theorem kv_pairs_keys_deterministic (R : RngSpec) (s1 s2 l : Nat) :
    (insertions R s1 l).map Prod.fst = (insertions R s2 l).map Prod.fst ∧
    (insertions R s1 l).length = l ∧
    (createRandomKvPairs R s1 l).length ≤ l ∧
    ((insertions R s1 l).take (l / 2)).all isAccountPair = true ∧
    ((insertions R s1 l).drop (l / 2)).all isStoragePair = true ∧
    ∃ (Q : RngSpec) (a b m : Nat),
      (insertions Q a m).map Prod.snd ≠ (insertions Q b m).map Prod.snd := by
  refine ⟨insertions_keys R s1 s2 l, insertions_length R s1 l, ?_,
    insertions_take R s1 l, insertions_drop R s1 l, ?_⟩
  · have hfold := foldl_mapInsert_length (insertions R s1 l) []
    rw [insertions_length] at hfold
    unfold createRandomKvPairs
    simpa using hfold
  · exact ⟨⟨fun x => x, fun st => (st, st + 1)⟩, 0, 1, 2, by decide⟩

end Icicle
